import Mathlib

/-!
Verification development for the LJSpeech data-preparation script
(`recipes/LJSpeech/TTS/ljspeech_prepare.py`).

The script is embedded shallowly:

* a catalog row of `metadata.csv` is a `CsvRow` (three pipe-separated fields);
* the session-grouping loop of `split_sets` is `split_sets_groups`, a fold
  over `List.range n` mirroring the Python `for i in range(len(meta_csv))`
  loop and its state `(index_for_sessions, session_id_start,
  index_this_session)`;
* the split-allocation loop of `split_sets` is `split_sets`, a fold over
  `splits.enum` mirroring `for i, split in enumerate(splits)`; the in-place
  `random.shuffle` calls are modelled by an oracle `sh : Nat → List Nat →
  List Nat` (one call index per shuffle, in call order); theorems quantify
  over all oracles that produce permutations, which covers every seed;
* `int(session_len[j] * split_ratio[i] / sum(split_ratio))` is modelled as
  natural floor division (exact for the representable ranges; ratios are
  modelled as naturals, the intended weight domain);
* Python's out-of-range list indexing raises; the embedding uses `getD`
  and the theorems carry the corresponding well-formedness hypotheses;
* `prepare_json` builds an insertion-ordered dictionary, modelled as an
  association list with in-place value overwrite (`upsert`);
* file-system interaction (`skip`, `prepare_ljspeech`) is modelled against
  an abstract world: an existence predicate on paths, the content of the
  persisted option file, and the parsed catalog; `prepare_ljspeech`
  returns the trace of effects it performs.
-/

namespace LJSpeechPrep

/-- One row of `metadata.csv` (pipe-delimited, no quoting):
`item_id|normalized_label|raw_label`. -/
structure CsvRow where
  col0 : String
  col1 : String
  col2 : String
deriving DecidableEq

def defaultRow : CsvRow := ⟨"", "", ""⟩

/-- Session id of a row: `meta_csv[i][0].split("-")[0]`, the part of the
item id before the first dash (the whole id when no dash occurs).
Represented as a character list. -/
def sessionIdOf (r : CsvRow) : List Char :=
  r.col0.toList.takeWhile (fun c => c != '-')

/-- One iteration of the session-grouping loop of `split_sets`.  The state is
`(index_for_sessions, session_id_start, index_this_session)`.  Note the two
quirks of the source, reproduced faithfully: the final group is appended only
inside the equal-prefix branch (at `i = n - 1`), and `session_id_start` is
initialised to `"LJ001"` (see `split_sets_groups`). -/
def groupStep (rows : List CsvRow) (n : Nat) :
    List (List Nat) × List Char × List Nat → Nat →
    List (List Nat) × List Char × List Nat
  | (acc, start, cur), i =>
    let sid := sessionIdOf (rows.getD i defaultRow)
    if sid = start then
      let cur' := cur ++ [i]
      if i = n - 1 then (acc ++ [cur'], start, cur') else (acc, start, cur')
    else (acc ++ [cur], sid, [i])

/-- The list `index_for_sessions` computed by the first loop of
`split_sets`. -/
def split_sets_groups (rows : List CsvRow) : List (List Nat) :=
  ((List.range rows.length).foldl (groupStep rows rows.length)
    ([], "LJ001".toList, [])).1

/-- One pass of the inner `for j in range(len(index_for_sessions))` loop for a
pool-consuming split (`train`, or `valid` when `test` is requested): shuffle
pool `j`, take the first `session_len[j] * r / s` indices into the split and
delete them from the pool.  The input list zips each current pool with its
original group length (`session_len[j]`); `k` is the shuffle-call counter.
Returns (new pools, collected indices, new counter). -/
def passDel (sh : Nat → List Nat → List Nat) (r s : Nat) :
    List (List Nat × Nat) → Nat → List (List Nat) × List Nat × Nat
  | [], k => ([], [], k)
  | p :: rest, k =>
    let shuffled := sh k p.1
    let n_snts := p.2 * r / s
    let out := passDel sh r s rest (k + 1)
    (shuffled.drop n_snts :: out.1, shuffled.take n_snts ++ out.2.1, out.2.2)

/-- One iteration of `for i, split in enumerate(splits)` in `split_sets`.
State: (current pools, `data_split` as a function, shuffle counter).
`p = (i, split)`.  For `valid` without `test` requested and for `test`, the
source extends the split with each whole remaining pool without deleting,
i.e. with the concatenation of the pools. -/
def splitStep (sh : Nat → List Nat → List Nat) (splits : List String)
    (ratios : List Nat) (slens : List Nat) :
    List (List Nat) × (String → List Nat) × Nat → Nat × String →
    List (List Nat) × (String → List Nat) × Nat
  | (pools, ds, k), (i, split) =>
    let r := ratios.getD i 0
    let s := ratios.sum
    if split = "train" then
      let out := passDel sh r s (pools.zip slens) k
      (out.1, Function.update ds split out.2.1, out.2.2)
    else if split = "valid" then
      if "test" ∈ splits then
        let out := passDel sh r s (pools.zip slens) k
        (out.1, Function.update ds split out.2.1, out.2.2)
      else (pools, Function.update ds split pools.flatten, k)
    else if split = "test" then (pools, Function.update ds split pools.flatten, k)
    else (pools, Function.update ds split [], k)

/-- The `data_split` dictionary returned by `split_sets` (the function also
returns the parsed catalog, which is just `rows` here).  `ratios` is the
`split_ratio` argument. -/
def split_sets (sh : Nat → List Nat → List Nat) (rows : List CsvRow)
    (splits : List String) (ratios : List Nat) : String → List Nat :=
  let groups := split_sets_groups rows
  let slens := groups.map List.length
  (splits.enum.foldl (splitStep sh splits ratios slens)
    (groups, fun _ => [], 0)).2.1

/-- A value of the manifest dictionary built by `prepare_json`. -/
structure Entry where
  wav : String
  label : String
  segment : Bool
  durations : Option String
deriving DecidableEq

/-- `json_dict[id] = v` on an insertion-ordered dictionary: overwrite the
value in place when the key is present, else append. -/
def upsert : List (String × Entry) → String → Entry → List (String × Entry)
  | [], key, v => [(key, v)]
  | q :: rest, key, v =>
    if q.1 = key then (key, v) :: rest else q :: upsert rest key v

/-- Substring test on character lists, modelling Python's `"train" in
json_file`. -/
def strContains : List Char → List Char → Bool
  | hay, needle =>
    if needle.isPrefixOf hay then true
    else
      match hay with
      | [] => false
      | _ :: t => strContains t needle

/-- The manifest dictionary written by `prepare_json` (the writing of the
file itself is an effect, see `prepare_ljspeech`).  The `segment` field is
`True if "train" in json_file else False`, a substring test on the whole
output path; the optional `durations` field is present exactly when a
durations folder was configured. -/
def prepare_json (seg_lst : List Nat) (json_file wavs_folder : String)
    (csv_reader : List CsvRow) (durations_folder : Option String) :
    List (String × Entry) :=
  seg_lst.foldl
    (fun jd index =>
      let id := (csv_reader.getD index defaultRow).col0
      let entry : Entry :=
        { wav := wavs_folder ++ "/" ++ id ++ ".wav"
          label := (csv_reader.getD index defaultRow).col2
          segment := strContains json_file.toList "train".toList
          durations := durations_folder.map (fun d => d ++ "/" ++ id ++ ".npy") }
      upsert jd id entry)
    []

/-- `char_set.update(*line.lower())` accumulated over the manifest: the set of
distinct lowercased characters of the labels, kept in first-seen order (the
source keeps them in a Python `set`, whose iteration order is unspecified;
any listing of the same set is a faithful refinement). -/
def insertChar (acc : List Char) (c : Char) : List Char :=
  if c ∈ acc then acc else acc ++ [c]

def charSetOf (data : List (String × Entry)) : List Char :=
  data.foldl (fun acc q => (q.2.label.toList.map Char.toLower).foldl insertChar acc) []

/-- `"\t".join(char_set)`. -/
def tabJoin (cs : List Char) : String :=
  String.intercalate "\t" (cs.map (fun c => String.mk [c]))

/-- `create_symbol_file`: a no-op (`none`) when the lexicon file already
exists, otherwise the content written to the lexicon file.  `data` is the
training manifest read back from disk, i.e. the dictionary that
`prepare_json` just wrote. -/
def create_symbol_file (lexiconExists : Bool) (data : List (String × Entry)) :
    Option String :=
  if lexiconExists then none else some (tabJoin (charSetOf data))

/-- The configuration record persisted to `opt_ljspeech_prepare.pkl`.
The `ratios` field embeds the source's `split_ratio` entry. -/
structure Conf where
  data_folder : String
  splits : List String
  ratios : List Nat
  save_folder : String
  seed : Nat
deriving DecidableEq

/-- The `split_files` lookup table of `skip` (total here; the source raises
`KeyError` on other names, and the theorems restrict to the three split
names). -/
def splitFileName (split : String) : String :=
  if split = "train" then "train.json"
  else if split = "valid" then "valid.json"
  else if split = "test" then "test.json"
  else ""

/-- The `skip` function: the manifest-existence loop followed by the
persisted-option comparison.  The file system is abstracted by the existence
predicate `fileExists`; `optContent` is the content of
`save_folder/opt_ljspeech_prepare.pkl` when that file exists, `none` when it
is missing. -/
def skip (splits : List String) (save_folder : String) (conf : Conf)
    (fileExists : String → Bool) (optContent : Option Conf) : Bool :=
  let skip1 := splits.foldl
    (fun sk split =>
      if fileExists (save_folder ++ "/" ++ splitFileName split) then sk
      else false)
    true
  if skip1 then
    match optContent with
    | some opts_old => if opts_old = conf then true else false
    | none => false
  else skip1

/-- Observable effects of `prepare_ljspeech`, in program order. -/
inductive Effect where
  | seedRandom : Nat → Effect
  | makeDirs : String → Effect
  | callProc : List String → Effect
  | readCsv : String → Effect
  | writeJson : String → List (String × Entry) → Effect
  | writeFile : String → String → Effect
  | writePkl : String → Conf → Effect
  | assertFail : Effect
deriving DecidableEq

/-- The world `prepare_ljspeech` runs against: which paths exist, the
persisted option record (if any), and the parsed content of
`data_folder/metadata.csv`. -/
structure World where
  fileExists : String → Bool
  optContent : Option Conf
  catalog : List CsvRow

/-- Effect trace of `prepare_ljspeech`.  `duration_link` and
`create_symbol_list` model the optional keyword arguments.  The function
first seeds the RNG, returns at once when `skip_prep` is set, and otherwise
runs: directory creation, the optional duration download block, the `skip`
check, the existence assertions, `split_sets`, one `prepare_json` per
requested split, the optional symbol file, and the option pickle. -/
def prepare_ljspeech (data_folder save_folder : String)
    (splits : List String) (ratios : List Nat) (seed : Nat)
    (skip_prep : Bool) (duration_link : Option String)
    (create_symbol_list : Bool) (sh : Nat → List Nat → List Nat)
    (w : World) : List Effect :=
  let e0 : List Effect := [Effect.seedRandom seed]
  if skip_prep then e0
  else
    let conf : Conf := ⟨data_folder, splits, ratios, save_folder, seed⟩
    let mkdirE : List Effect :=
      if w.fileExists save_folder then [] else [Effect.makeDirs save_folder]
    let meta_csv := data_folder ++ "/metadata.csv"
    let wavs_folder := data_folder ++ "/wavs"
    let save_opt := save_folder ++ "/opt_ljspeech_prepare.pkl"
    let durE : List Effect :=
      match duration_link with
      | some link =>
        if w.fileExists (data_folder ++ "/durations") then []
        else
          [Effect.callProc ["wget", "-q", link],
           Effect.callProc ["unzip", "-qq", "ljspeech_DFA_durations.zip"],
           Effect.callProc ["mv", "durations", data_folder ++ "/durations"],
           Effect.callProc ["rm", "-r", "ljspeech_DFA_durations.zip"]]
      | none => []
    let durations_folder : Option String :=
      match duration_link with
      | some _ => some (data_folder ++ "/durations")
      | none => none
    if skip splits save_folder conf w.fileExists w.optContent then
      e0 ++ mkdirE ++ durE
    else if ¬ (w.fileExists meta_csv = true ∧ w.fileExists wavs_folder = true) then
      e0 ++ mkdirE ++ durE ++ [Effect.assertFail]
    else
      let rows := w.catalog
      let ds := split_sets sh rows splits ratios
      let wT : List Effect :=
        if "train" ∈ splits then
          [Effect.writeJson (save_folder ++ "/train.json")
            (prepare_json (ds "train") (save_folder ++ "/train.json")
              wavs_folder rows durations_folder)]
        else []
      let wV : List Effect :=
        if "valid" ∈ splits then
          [Effect.writeJson (save_folder ++ "/valid.json")
            (prepare_json (ds "valid") (save_folder ++ "/valid.json")
              wavs_folder rows durations_folder)]
        else []
      let wX : List Effect :=
        if "test" ∈ splits then
          [Effect.writeJson (save_folder ++ "/test.json")
            (prepare_json (ds "test") (save_folder ++ "/test.json")
              wavs_folder rows durations_folder)]
        else []
      let symE : List Effect :=
        if create_symbol_list then
          match create_symbol_file (w.fileExists (save_folder ++ "/lexicon"))
              (prepare_json (ds "train") (save_folder ++ "/train.json")
                wavs_folder rows durations_folder) with
          | some content => [Effect.writeFile (save_folder ++ "/lexicon") content]
          | none => []
        else []
      e0 ++ mkdirE ++ durE ++ [Effect.readCsv meta_csv] ++ wT ++ wV ++ wX
        ++ symE ++ [Effect.writePkl save_opt conf]

/-! ### Specification-side definitions (for refinement claims)

`sessionRuns` follows the words of the spec's grouping contract: walk the
records in file order, maintain the current session prefix (initialised from
the first record), accumulate while it repeats, close the group on each change,
and close the final group at end of file — one group per maximal run.

`allocInListOrder` follows the words of the amended allocation claim:
process the (split, ratio) pairs sequentially in list order. -/

def specWalk : List Char → List Nat → List (List Nat) → List (Nat × List Char) →
    List (List Nat)
  | _, cur, acc, [] => acc ++ [cur]
  | start, cur, acc, q :: rest =>
    if q.2 = start then specWalk start (cur ++ [q.1]) acc rest
    else specWalk q.2 [q.1] (acc ++ [cur]) rest

def taggedIdx (rows : List CsvRow) : List (Nat × List Char) :=
  (List.range rows.length).map (fun i => (i, sessionIdOf (rows.getD i defaultRow)))

/-- The maximal runs of equal session prefixes, in file order: the grouping
that the spec's words describe. -/
def sessionRuns (rows : List CsvRow) : List (List Nat) :=
  match taggedIdx rows with
  | [] => []
  | q :: rest => specWalk q.2 [q.1] [] rest

/-- Allocation step applied to an explicit (split, ratio) pair;
`testRequested` says whether `test` is among the requested splits. -/
def allocStep (sh : Nat → List Nat → List Nat) (testRequested : Bool)
    (s : Nat) (slens : List Nat) :
    List (List Nat) × (String → List Nat) × Nat → String × Nat →
    List (List Nat) × (String → List Nat) × Nat
  | (pools, ds, k), (split, r) =>
    if split = "train" then
      let out := passDel sh r s (pools.zip slens) k
      (out.1, Function.update ds split out.2.1, out.2.2)
    else if split = "valid" then
      if testRequested then
        let out := passDel sh r s (pools.zip slens) k
        (out.1, Function.update ds split out.2.1, out.2.2)
      else (pools, Function.update ds split pools.flatten, k)
    else if split = "test" then (pools, Function.update ds split pools.flatten, k)
    else (pools, Function.update ds split [], k)

/-- Sequential allocation over the zipped (split, ratio) list, in list
order. -/
def allocInListOrder (sh : Nat → List Nat → List Nat) (rows : List CsvRow)
    (splits : List String) (ratios : List Nat) : String → List Nat :=
  let groups := split_sets_groups rows
  let slens := groups.map List.length
  ((splits.zip ratios).foldl
    (allocStep sh (splits.contains "test") ratios.sum slens)
    (groups, fun _ => [], 0)).2.1

/-! ### Concrete catalogs used by counterexamples and witnesses -/

/-- Two sessions: `LJ001` with 10 rows, `LJ002` with 5 rows. -/
def demoRows15 : List CsvRow :=
  [⟨"LJ001-0001", "a", "A"⟩, ⟨"LJ001-0002", "b", "B"⟩, ⟨"LJ001-0003", "c", "C"⟩,
   ⟨"LJ001-0004", "d", "D"⟩, ⟨"LJ001-0005", "e", "E"⟩, ⟨"LJ001-0006", "f", "F"⟩,
   ⟨"LJ001-0007", "g", "G"⟩, ⟨"LJ001-0008", "h", "H"⟩, ⟨"LJ001-0009", "i", "I"⟩,
   ⟨"LJ001-0010", "j", "J"⟩, ⟨"LJ002-0001", "k", "K"⟩, ⟨"LJ002-0002", "l", "L"⟩,
   ⟨"LJ002-0003", "m", "M"⟩, ⟨"LJ002-0004", "n", "N"⟩, ⟨"LJ002-0005", "o", "O"⟩]

/-- A single session `LJ001` with two rows. -/
def demoRows2 : List CsvRow :=
  [⟨"LJ001-0001", "a", "A"⟩, ⟨"LJ001-0002", "b", "B"⟩]

/-- A single row whose session prefix is not `LJ001`. -/
def demoRowAB : List CsvRow := [⟨"AB001-0001", "a", "A"⟩]

/-- The identity shuffle oracle (a legitimate shuffle outcome). -/
def idSh : Nat → List Nat → List Nat := fun _ l => l

/-- A demo training manifest whose labels are exactly `Hello` and `World`. -/
def demoManifest : List (String × Entry) :=
  [("LJ001-0001", ⟨"w1", "Hello", true, none⟩),
   ("LJ001-0002", ⟨"w2", "World", true, none⟩)]

/-! ### General helper lemmas -/

lemma subperm_nodup {l₁ l₂ : List Nat} (h : l₁.Subperm l₂) (h₂ : l₂.Nodup) :
    l₁.Nodup := by
  obtain ⟨l, hp, hs⟩ := h
  exact hp.nodup_iff.mp (hs.nodup h₂)

/-- Multiset-style reshuffling of four appended blocks. -/
lemma append_append_perm (a b c d : List Nat) :
    ((a ++ b) ++ (c ++ d)).Perm ((a ++ c) ++ (b ++ d)) := by
  rw [List.perm_iff_count]
  intro x
  simp only [List.count_append]
  omega

/-- `strContains` decides the substring relation. -/
lemma strContains_iff (hay needle : List Char) :
    strContains hay needle = true ↔ needle.IsInfix hay := by
  induction hay with
  | nil =>
    rw [strContains]
    constructor
    · intro h
      split at h
      · next hpre => exact (List.isPrefixOf_iff_prefix.mp hpre).isInfix
      · simp at h
    · intro h
      have hn : needle = [] := by
        rcases h with ⟨s, t, hst⟩
        simp at hst
        exact hst.2.1
      subst hn
      simp [List.isPrefixOf]
  | cons a t ih =>
    rw [strContains]
    constructor
    · intro h
      split at h
      · next hpre => exact (List.isPrefixOf_iff_prefix.mp hpre).isInfix
      · exact List.infix_cons_iff.mpr (Or.inr (ih.mp h))
    · intro h
      split
      · rfl
      · next hpre =>
        rcases List.infix_cons_iff.mp h with hp | hi
        · exact absurd (List.isPrefixOf_iff_prefix.mpr hp) (by simpa using hpre)
        · exact ih.mpr hi

/-- Membership in an `upsert` comes from the old dictionary or is the new
binding. -/
lemma mem_upsert {m : List (String × Entry)} {key : String} {v : Entry}
    {q : String × Entry} (h : q ∈ upsert m key v) :
    q ∈ m ∨ q = (key, v) := by
  induction m with
  | nil => simpa [upsert] using h
  | cons p rest ih =>
    rw [upsert] at h
    split at h
    · rcases List.mem_cons.mp h with h | h
      · exact Or.inr h
      · exact Or.inl (List.mem_cons_of_mem _ h)
    · rcases List.mem_cons.mp h with h | h
      · exact Or.inl (h ▸ List.mem_cons_self _ _)
      · rcases ih h with h | h
        · exact Or.inl (List.mem_cons_of_mem _ h)
        · exact Or.inr h

/-- Every entry that `prepare_json` emits carries the substring-based
`segment` flag. -/
lemma prepare_json_mem_segment (seg_lst : List Nat) (jf wf : String)
    (rows : List CsvRow) (dur : Option String) :
    ∀ q ∈ prepare_json seg_lst jf wf rows dur,
      q.2.segment = strContains jf.toList "train".toList := by
  have key : ∀ (l : List Nat) (acc : List (String × Entry)),
      (∀ q ∈ acc, q.2.segment = strContains jf.toList "train".toList) →
      ∀ q ∈ l.foldl
        (fun jd index =>
          let id := (rows.getD index defaultRow).col0
          let entry : Entry :=
            { wav := wf ++ "/" ++ id ++ ".wav"
              label := (rows.getD index defaultRow).col2
              segment := strContains jf.toList "train".toList
              durations := dur.map (fun d => d ++ "/" ++ id ++ ".npy") }
          upsert jd id entry) acc,
        q.2.segment = strContains jf.toList "train".toList := by
    intro l
    induction l with
    | nil => intro acc hacc q hq; exact hacc q hq
    | cons i t ih =>
      intro acc hacc q hq
      refine ih _ ?_ q hq
      intro q' hq'
      rcases mem_upsert hq' with h | h
      · exact hacc q' h
      · subst h; rfl
  intro q hq
  exact key seg_lst [] (by simp) q hq

/-! ### Lemmas about `passDel` and the grouping loop -/

lemma passDel_pools_length (sh : Nat → List Nat → List Nat) (r s : Nat) :
    ∀ (l : List (List Nat × Nat)) (k : Nat),
      (passDel sh r s l k).1.length = l.length := by
  intro l
  induction l with
  | nil => intro k; rfl
  | cons p rest ih => intro k; simp [passDel, ih]

/-- The indices collected by a deleting pass together with what remains in
the pools are a permutation of the input pools. -/
lemma passDel_perm (sh : Nat → List Nat → List Nat)
    (Hsh : ∀ k l, (sh k l).Perm l) (r s : Nat) :
    ∀ (l : List (List Nat × Nat)) (k : Nat),
      ((passDel sh r s l k).2.1 ++ (passDel sh r s l k).1.flatten).Perm
        ((l.map Prod.fst).flatten) := by
  intro l
  induction l with
  | nil => intro k; simp [passDel]
  | cons p rest ih =>
    intro k
    simp only [passDel, List.map_cons, List.flatten_cons]
    set A := (sh k p.1).take (p.2 * r / s) with hA
    set C := (sh k p.1).drop (p.2 * r / s) with hC
    set B := (passDel sh r s rest (k + 1)).2.1 with hB
    set D := (passDel sh r s rest (k + 1)).1.flatten with hD
    have step1 : ((A ++ B) ++ (C ++ D)).Perm ((A ++ C) ++ (B ++ D)) :=
      append_append_perm A B C D
    have step2 : A ++ C = sh k p.1 := by
      rw [hA, hC]; exact List.take_append_drop _ _
    have step3 : ((A ++ C) ++ (B ++ D)).Perm (p.1 ++ (rest.map Prod.fst).flatten) := by
      rw [step2]
      exact (Hsh k p.1).append (ih (k + 1))
    exact (step1.trans step3)

lemma passDel_cur_mem (sh : Nat → List Nat → List Nat)
    (Hsh : ∀ k l, (sh k l).Perm l) (r s : Nat)
    (pools : List (List Nat)) (slens : List Nat) (k : Nat) :
    (∀ x ∈ (passDel sh r s (pools.zip slens) k).2.1, x ∈ pools.flatten) ∧
    (∀ x ∈ (passDel sh r s (pools.zip slens) k).1.flatten, x ∈ pools.flatten) := by
  have hp := passDel_perm sh Hsh r s (pools.zip slens) k
  have core : ∀ x ∈ (((pools.zip slens).map Prod.fst).flatten), x ∈ pools.flatten := by
    intro x hx
    rcases List.mem_flatten.mp hx with ⟨m, hm, hxm⟩
    rcases List.mem_map.mp hm with ⟨pr, hpr, rfl⟩
    have : pr.1 ∈ pools := (List.of_mem_zip (by simpa using hpr)).1
    exact List.mem_flatten.mpr ⟨pr.1, this, hxm⟩
  constructor
  · intro x hx
    exact core x (hp.subset (List.mem_append_left _ hx))
  · intro x hx
    exact core x (hp.subset (List.mem_append_right _ hx))

lemma nodup_snoc_of_lt {L : List Nat} {i : Nat} (hnd : L.Nodup)
    (hlt : ∀ x ∈ L, x < i) : (L ++ [i]).Nodup := by
  rw [List.nodup_append]
  refine ⟨hnd, List.nodup_singleton i, ?_⟩
  intro a ha hb
  rw [List.mem_singleton] at hb
  subst hb
  exact absurd (hlt _ ha) (lt_irrefl _)

/-- Invariant of the grouping loop: the groups accumulated so far, together
with the group in progress, contain no duplicates and only indices below the
loop counter; hence the final groups are duplicate-free and bounded by the
catalog length. -/
lemma groupFold_inv (rows : List CsvRow) (n : Nat) :
    ∀ (c i : Nat) (acc : List (List Nat)) (start : List Char) (cur : List Nat),
      i + c = n →
      (acc.flatten ++ cur).Nodup →
      (∀ x ∈ acc.flatten ++ cur, x < i) →
      (((List.range' i c).foldl (groupStep rows n) (acc, start, cur)).1.flatten.Nodup ∧
        ∀ x ∈ ((List.range' i c).foldl (groupStep rows n) (acc, start, cur)).1.flatten,
          x < n) := by
  intro c
  induction c with
  | zero =>
    intro i acc start cur hin hnd hlt
    refine ⟨hnd.of_append_left, ?_⟩
    intro x hx
    have := hlt x (List.mem_append_left _ hx)
    omega
  | succ c ih =>
    intro i acc start cur hin hnd hlt
    rw [List.range'_succ, List.foldl_cons]
    by_cases hsid : sessionIdOf (rows.getD i defaultRow) = start
    · by_cases hlast : i = n - 1
      · have hc : c = 0 := by omega
        subst hc
        have hstep : groupStep rows n (acc, start, cur) i =
            (acc ++ [cur ++ [i]], start, cur ++ [i]) := by
          simp only [groupStep]
          rw [if_pos hsid, if_pos hlast]
        rw [hstep, show List.range' (i + 1) 0 = [] from rfl, List.foldl_nil]
        have hflat : ((acc ++ [cur ++ [i]], start, cur ++ [i]) :
            List (List Nat) × List Char × List Nat).1.flatten =
            (acc.flatten ++ cur) ++ [i] := by
          simp
        rw [hflat]
        constructor
        · exact nodup_snoc_of_lt hnd hlt
        · intro x hx
          rcases List.mem_append.mp hx with hx | hx
          · have := hlt x hx; omega
          · rw [List.mem_singleton] at hx; omega
      · have hstep : groupStep rows n (acc, start, cur) i =
            (acc, start, cur ++ [i]) := by
          simp only [groupStep]
          rw [if_pos hsid, if_neg hlast]
        rw [hstep]
        refine ih (i + 1) acc start (cur ++ [i]) (by omega) ?_ ?_
        · rw [← List.append_assoc]
          exact nodup_snoc_of_lt hnd hlt
        · intro x hx
          rw [← List.append_assoc] at hx
          rcases List.mem_append.mp hx with hx | hx
          · have := hlt x hx; omega
          · rw [List.mem_singleton] at hx; omega
    · have hstep : groupStep rows n (acc, start, cur) i =
          (acc ++ [cur], sessionIdOf (rows.getD i defaultRow), [i]) := by
        simp only [groupStep]
        rw [if_neg hsid]
      rw [hstep]
      refine ih (i + 1) (acc ++ [cur]) _ [i] (by omega) ?_ ?_
      · have : (acc ++ [cur]).flatten ++ [i] = (acc.flatten ++ cur) ++ [i] := by simp
        rw [this]
        exact nodup_snoc_of_lt hnd hlt
      · intro x hx
        have : (acc ++ [cur]).flatten ++ [i] = (acc.flatten ++ cur) ++ [i] := by simp
        rw [this] at hx
        rcases List.mem_append.mp hx with hx | hx
        · have := hlt x hx; omega
        · rw [List.mem_singleton] at hx; omega

/-- The session groups contain no duplicate indices and only indices of
catalog rows. -/
lemma split_sets_groups_flatten (rows : List CsvRow) :
    (split_sets_groups rows).flatten.Nodup ∧
      ∀ x ∈ (split_sets_groups rows).flatten, x < rows.length := by
  unfold split_sets_groups
  rw [List.range_eq_range']
  exact groupFold_inv rows rows.length rows.length 0 [] _ []
    (by omega) (by simp) (by simp)

/-! ### Evaluation lemmas for the split-allocation loop -/

lemma splitStep_train (sh : Nat → List Nat → List Nat) (splits : List String)
    (ratios slens : List Nat) (pools : List (List Nat))
    (ds : String → List Nat) (k i : Nat) :
    splitStep sh splits ratios slens (pools, ds, k) (i, "train") =
      ((passDel sh (ratios.getD i 0) ratios.sum (pools.zip slens) k).1,
       Function.update ds "train"
         (passDel sh (ratios.getD i 0) ratios.sum (pools.zip slens) k).2.1,
       (passDel sh (ratios.getD i 0) ratios.sum (pools.zip slens) k).2.2) := by
  simp [splitStep]

lemma splitStep_valid_mem (sh : Nat → List Nat → List Nat)
    {splits : List String} (h : "test" ∈ splits)
    (ratios slens : List Nat) (pools : List (List Nat))
    (ds : String → List Nat) (k i : Nat) :
    splitStep sh splits ratios slens (pools, ds, k) (i, "valid") =
      ((passDel sh (ratios.getD i 0) ratios.sum (pools.zip slens) k).1,
       Function.update ds "valid"
         (passDel sh (ratios.getD i 0) ratios.sum (pools.zip slens) k).2.1,
       (passDel sh (ratios.getD i 0) ratios.sum (pools.zip slens) k).2.2) := by
  simp [splitStep, h]

lemma splitStep_valid_not_mem (sh : Nat → List Nat → List Nat)
    {splits : List String} (h : "test" ∉ splits)
    (ratios slens : List Nat) (pools : List (List Nat))
    (ds : String → List Nat) (k i : Nat) :
    splitStep sh splits ratios slens (pools, ds, k) (i, "valid") =
      (pools, Function.update ds "valid" pools.flatten, k) := by
  simp [splitStep, h]

lemma splitStep_test (sh : Nat → List Nat → List Nat) (splits : List String)
    (ratios slens : List Nat) (pools : List (List Nat))
    (ds : String → List Nat) (k i : Nat) :
    splitStep sh splits ratios slens (pools, ds, k) (i, "test") =
      (pools, Function.update ds "test" pools.flatten, k) := by
  simp [splitStep]

/-! ### Boundedness of everything `split_sets` produces -/

lemma splitStep_bounded (sh : Nat → List Nat → List Nat)
    (Hsh : ∀ k l, (sh k l).Perm l) (splits : List String)
    (ratios slens : List Nat) {n : Nat} (pools : List (List Nat))
    (ds : String → List Nat) (k : Nat) (p : Nat × String)
    (h1 : ∀ x ∈ pools.flatten, x < n) (h2 : ∀ s, ∀ x ∈ ds s, x < n) :
    (∀ x ∈ (splitStep sh splits ratios slens (pools, ds, k) p).1.flatten, x < n) ∧
    (∀ s, ∀ x ∈ (splitStep sh splits ratios slens (pools, ds, k) p).2.1 s, x < n) := by
  obtain ⟨i, name⟩ := p
  have hPD : ∀ r k',
      (∀ x ∈ (passDel sh r ratios.sum (pools.zip slens) k').1.flatten, x < n) ∧
      (∀ x ∈ (passDel sh r ratios.sum (pools.zip slens) k').2.1, x < n) := by
    intro r k'
    have hm := passDel_cur_mem sh Hsh r ratios.sum pools slens k'
    exact ⟨fun x hx => h1 x (hm.2 x hx), fun x hx => h1 x (hm.1 x hx)⟩
  have hUP : ∀ (nm : String) (val : List Nat), (∀ x ∈ val, x < n) →
      ∀ s, ∀ x ∈ Function.update ds nm val s, x < n := by
    intro nm val hv s x hx
    rcases eq_or_ne s nm with rfl | hne
    · rw [Function.update_same] at hx; exact hv x hx
    · rw [Function.update_noteq hne] at hx; exact h2 s x hx
  simp only [splitStep]
  split_ifs with hA hB hC hD
  · exact ⟨(hPD _ k).1, hUP _ _ (hPD _ k).2⟩
  · exact ⟨(hPD _ k).1, hUP _ _ (hPD _ k).2⟩
  · exact ⟨h1, hUP _ _ h1⟩
  · exact ⟨h1, hUP _ _ h1⟩
  · exact ⟨h1, hUP _ _ (by intro x hx; cases hx)⟩

lemma splitFold_bounded (sh : Nat → List Nat → List Nat)
    (Hsh : ∀ k l, (sh k l).Perm l) (splits : List String)
    (ratios slens : List Nat) {n : Nat} :
    ∀ (L : List (Nat × String)) (pools : List (List Nat))
      (ds : String → List Nat) (k : Nat),
      (∀ x ∈ pools.flatten, x < n) → (∀ s, ∀ x ∈ ds s, x < n) →
      (∀ x ∈ (L.foldl (splitStep sh splits ratios slens) (pools, ds, k)).1.flatten,
        x < n) ∧
      (∀ s, ∀ x ∈ (L.foldl (splitStep sh splits ratios slens) (pools, ds, k)).2.1 s,
        x < n) := by
  intro L
  induction L with
  | nil => exact fun pools ds k h1 h2 => ⟨h1, h2⟩
  | cons p rest ih =>
    intro pools ds k h1 h2
    rw [List.foldl_cons]
    have hstep := splitStep_bounded sh Hsh splits ratios slens pools ds k p h1 h2
    exact ih (splitStep sh splits ratios slens (pools, ds, k) p).1
      (splitStep sh splits ratios slens (pools, ds, k) p).2.1
      (splitStep sh splits ratios slens (pools, ds, k) p).2.2 hstep.1 hstep.2

/-! ### Disjointness machinery -/

lemma disjoint_mono_right {a b c : List Nat} (h : a.Disjoint b) (hcb : c ⊆ b) :
    a.Disjoint c := fun _ hx hxc => h hx (hcb hxc)

/-- One deleting pass over duplicate-free pools splits their contents into a
collected part and a remaining part: together they permute the input, and in
particular they are disjoint and duplicate-free. -/
lemma passDel_split_nodup (sh : Nat → List Nat → List Nat)
    (Hsh : ∀ k l, (sh k l).Perm l) (r s : Nat) (G : List (List Nat))
    (slens : List Nat) (hlen : G.length ≤ slens.length)
    (hG : G.flatten.Nodup) (k : Nat) :
    ((passDel sh r s (G.zip slens) k).2.1 ++
      (passDel sh r s (G.zip slens) k).1.flatten).Perm G.flatten ∧
    ((passDel sh r s (G.zip slens) k).2.1).Nodup ∧
    ((passDel sh r s (G.zip slens) k).1.flatten).Nodup ∧
    ((passDel sh r s (G.zip slens) k).2.1).Disjoint
      ((passDel sh r s (G.zip slens) k).1.flatten) := by
  have hp := passDel_perm sh Hsh r s (G.zip slens) k
  rw [List.map_fst_zip _ _ hlen] at hp
  have hnd := hp.nodup_iff.mpr hG
  rw [List.nodup_append] at hnd
  exact ⟨hp, hnd.1, hnd.2.1, hnd.2.2⟩

lemma sublist_tvt {splits : List String}
    (h : splits.Sublist ["train", "valid", "test"]) :
    splits = [] ∨ splits = ["train"] ∨ splits = ["valid"] ∨ splits = ["test"] ∨
    splits = ["train", "valid"] ∨ splits = ["train", "test"] ∨
    splits = ["valid", "test"] ∨ splits = ["train", "valid", "test"] := by
  rcases List.sublist_cons_iff.mp h with h1 | ⟨r, rfl, hr⟩
  · rcases List.sublist_cons_iff.mp h1 with h2 | ⟨r, rfl, hr⟩
    · rcases List.sublist_cons_iff.mp h2 with h3 | ⟨r, rfl, hr⟩
      · left; exact List.sublist_nil.mp h3
      · have := List.sublist_nil.mp hr; subst this; tauto
    · rcases List.sublist_cons_iff.mp hr with h3 | ⟨r', rfl, hr'⟩
      · have := List.sublist_nil.mp h3; subst this; tauto
      · have := List.sublist_nil.mp hr'; subst this; tauto
  · rcases List.sublist_cons_iff.mp hr with h2 | ⟨r', rfl, hr'⟩
    · rcases List.sublist_cons_iff.mp h2 with h3 | ⟨r', rfl, hr'⟩
      · have := List.sublist_nil.mp h3; subst this; tauto
      · have := List.sublist_nil.mp hr'; subst this; tauto
    · rcases List.sublist_cons_iff.mp hr' with h3 | ⟨r'', rfl, hr''⟩
      · have := List.sublist_nil.mp h3; subst this; tauto
      · have := List.sublist_nil.mp hr''; subst this; tauto

/-! ### Claim C1 -/

/-- C1 counterexample: with the configuration `splits = ["test", "train"]`
(a permutation of a subset of the three split names), index 0 is assigned to
both `test` and `train`: the returned index lists are not pairwise
disjoint. -/
theorem split_sets_disjoint_cx :
    0 ∈ split_sets idSh demoRows2 ["test", "train"] [10, 90] "train" ∧
    0 ∈ split_sets idSh demoRows2 ["test", "train"] [10, 90] "test" ∧
    ¬ (split_sets idSh demoRows2 ["test", "train"] [10, 90] "train").Disjoint
        (split_sets idSh demoRows2 ["test", "train"] [10, 90] "test") := by
  refine ⟨by decide, by decide, fun h => h (a := 0) (by decide) (by decide)⟩

/-- C1 (amended): for every catalog, configuration and shuffle outcome the
union of the returned index lists is contained in the row indices of the
catalog; the lists are pairwise disjoint provided the requested splits are
listed in the canonical order (a sublist of `["train", "valid", "test"]`,
which covers every subset in that order).  Requesting a non-consuming split
before a later one (e.g. `["test", "train"]`) breaks disjointness, see the
counterexample. -/
theorem split_sets_bounded_and_disjoint (sh : Nat → List Nat → List Nat)
    (Hsh : ∀ k l, (sh k l).Perm l) (rows : List CsvRow)
    (splits : List String) (ratios : List Nat) :
    (∀ s, ∀ x ∈ split_sets sh rows splits ratios s, x < rows.length) ∧
    (splits.Sublist ["train", "valid", "test"] →
      List.Pairwise (fun a b =>
        (split_sets sh rows splits ratios a).Disjoint
          (split_sets sh rows splits ratios b)) splits) := by
  have hGf := split_sets_groups_flatten rows
  set G := split_sets_groups rows with hGdef
  have hslen : G.length ≤ (G.map List.length).length := by
    rw [List.length_map]
  have hlen1 : ∀ r s k, (passDel sh r s (G.zip (G.map List.length)) k).1.length ≤
      (G.map List.length).length := by
    intro r s k
    rw [passDel_pools_length, List.length_zip, List.length_map]
    omega
  constructor
  · -- boundedness, for every configuration
    intro s x hx
    have hfold := splitFold_bounded sh Hsh splits ratios (G.map List.length)
      (n := rows.length) splits.enum G (fun _ => []) 0
      (fun x hx => hGf.2 x hx) (fun s x hx => by cases hx)
    exact hfold.2 s x (by simpa [split_sets, ← hGdef] using hx)
  · intro hsub
    rcases sublist_tvt hsub with rfl | rfl | rfl | rfl | rfl | rfl | rfl | rfl
    · exact List.Pairwise.nil
    · exact List.pairwise_singleton _ _
    · exact List.pairwise_singleton _ _
    · exact List.pairwise_singleton _ _
    · -- ["train", "valid"]
      have hEq : split_sets sh rows ["train", "valid"] ratios =
          Function.update
            (Function.update (fun _ => ([] : List Nat)) "train"
              (passDel sh (ratios.getD 0 0) ratios.sum
                (G.zip (G.map List.length)) 0).2.1)
            "valid"
            (passDel sh (ratios.getD 0 0) ratios.sum
              (G.zip (G.map List.length)) 0).1.flatten := by
        simp only [split_sets, ← hGdef]
        rw [show (["train", "valid"] : List String).enum =
            [(0, "train"), (1, "valid")] from rfl,
          List.foldl_cons, splitStep_train, List.foldl_cons,
          splitStep_valid_not_mem sh (by decide), List.foldl_nil]
      have hps := passDel_split_nodup sh Hsh (ratios.getD 0 0) ratios.sum G
        (G.map List.length) hslen hGf.1 0
      rw [hEq]
      refine List.Pairwise.cons ?_ (List.pairwise_singleton _ _)
      intro b hb
      rw [List.mem_singleton] at hb
      subst hb
      rw [Function.update_noteq (by decide : ("train" : String) ≠ "valid"),
        Function.update_same, Function.update_same]
      exact hps.2.2.2
    · -- ["train", "test"]
      have hEq : split_sets sh rows ["train", "test"] ratios =
          Function.update
            (Function.update (fun _ => ([] : List Nat)) "train"
              (passDel sh (ratios.getD 0 0) ratios.sum
                (G.zip (G.map List.length)) 0).2.1)
            "test"
            (passDel sh (ratios.getD 0 0) ratios.sum
              (G.zip (G.map List.length)) 0).1.flatten := by
        simp only [split_sets, ← hGdef]
        rw [show (["train", "test"] : List String).enum =
            [(0, "train"), (1, "test")] from rfl,
          List.foldl_cons, splitStep_train, List.foldl_cons,
          splitStep_test, List.foldl_nil]
      have hps := passDel_split_nodup sh Hsh (ratios.getD 0 0) ratios.sum G
        (G.map List.length) hslen hGf.1 0
      rw [hEq]
      refine List.Pairwise.cons ?_ (List.pairwise_singleton _ _)
      intro b hb
      rw [List.mem_singleton] at hb
      subst hb
      rw [Function.update_noteq (by decide : ("train" : String) ≠ "test"),
        Function.update_same, Function.update_same]
      exact hps.2.2.2
    · -- ["valid", "test"]
      have hEq : split_sets sh rows ["valid", "test"] ratios =
          Function.update
            (Function.update (fun _ => ([] : List Nat)) "valid"
              (passDel sh (ratios.getD 0 0) ratios.sum
                (G.zip (G.map List.length)) 0).2.1)
            "test"
            (passDel sh (ratios.getD 0 0) ratios.sum
              (G.zip (G.map List.length)) 0).1.flatten := by
        simp only [split_sets, ← hGdef]
        rw [show (["valid", "test"] : List String).enum =
            [(0, "valid"), (1, "test")] from rfl,
          List.foldl_cons, splitStep_valid_mem sh (by decide), List.foldl_cons,
          splitStep_test, List.foldl_nil]
      have hps := passDel_split_nodup sh Hsh (ratios.getD 0 0) ratios.sum G
        (G.map List.length) hslen hGf.1 0
      rw [hEq]
      refine List.Pairwise.cons ?_ (List.pairwise_singleton _ _)
      intro b hb
      rw [List.mem_singleton] at hb
      subst hb
      rw [Function.update_noteq (by decide : ("valid" : String) ≠ "test"),
        Function.update_same, Function.update_same]
      exact hps.2.2.2
    · -- ["train", "valid", "test"]
      have hEq : split_sets sh rows ["train", "valid", "test"] ratios =
          Function.update
            (Function.update
              (Function.update (fun _ => ([] : List Nat)) "train"
                (passDel sh (ratios.getD 0 0) ratios.sum
                  (G.zip (G.map List.length)) 0).2.1)
              "valid"
              (passDel sh (ratios.getD 1 0) ratios.sum
                ((passDel sh (ratios.getD 0 0) ratios.sum
                  (G.zip (G.map List.length)) 0).1.zip (G.map List.length))
                (passDel sh (ratios.getD 0 0) ratios.sum
                  (G.zip (G.map List.length)) 0).2.2).2.1)
            "test"
            (passDel sh (ratios.getD 1 0) ratios.sum
              ((passDel sh (ratios.getD 0 0) ratios.sum
                (G.zip (G.map List.length)) 0).1.zip (G.map List.length))
              (passDel sh (ratios.getD 0 0) ratios.sum
                (G.zip (G.map List.length)) 0).2.2).1.flatten := by
        simp only [split_sets, ← hGdef]
        rw [show (["train", "valid", "test"] : List String).enum =
            [(0, "train"), (1, "valid"), (2, "test")] from rfl,
          List.foldl_cons, splitStep_train, List.foldl_cons,
          splitStep_valid_mem sh (by decide), List.foldl_cons,
          splitStep_test, List.foldl_nil]
      have hps1 := passDel_split_nodup sh Hsh (ratios.getD 0 0) ratios.sum G
        (G.map List.length) hslen hGf.1 0
      have hps2 := passDel_split_nodup sh Hsh (ratios.getD 1 0) ratios.sum
        (passDel sh (ratios.getD 0 0) ratios.sum (G.zip (G.map List.length)) 0).1
        (G.map List.length) (hlen1 _ _ _) hps1.2.2.1
        (passDel sh (ratios.getD 0 0) ratios.sum (G.zip (G.map List.length)) 0).2.2
      rw [hEq]
      -- names for the three allocated lists
      set T := (passDel sh (ratios.getD 0 0) ratios.sum
        (G.zip (G.map List.length)) 0).2.1 with hT
      set P1 := (passDel sh (ratios.getD 0 0) ratios.sum
        (G.zip (G.map List.length)) 0).1 with hP1
      set V := (passDel sh (ratios.getD 1 0) ratios.sum
        (P1.zip (G.map List.length)) (passDel sh (ratios.getD 0 0) ratios.sum
          (G.zip (G.map List.length)) 0).2.2).2.1 with hV
      set X := (passDel sh (ratios.getD 1 0) ratios.sum
        (P1.zip (G.map List.length)) (passDel sh (ratios.getD 0 0) ratios.sum
          (G.zip (G.map List.length)) 0).2.2).1.flatten with hX
      have hTP1 : T.Disjoint P1.flatten := hps1.2.2.2
      have hVsub : V ⊆ P1.flatten := fun x hx =>
        hps2.1.subset (List.mem_append_left _ hx)
      have hXsub : X ⊆ P1.flatten := fun x hx =>
        hps2.1.subset (List.mem_append_right _ hx)
      refine List.Pairwise.cons ?_ (List.Pairwise.cons ?_
        (List.pairwise_singleton _ _))
      · intro b hb
        rcases List.mem_cons.mp hb with rfl | hb
        · -- train vs valid
          rw [Function.update_noteq (by decide : ("train" : String) ≠ "test"),
            Function.update_noteq (by decide : ("train" : String) ≠ "valid"),
            Function.update_same,
            Function.update_noteq (by decide : ("valid" : String) ≠ "test"),
            Function.update_same]
          exact disjoint_mono_right hTP1 hVsub
        · rw [List.mem_singleton] at hb
          subst hb
          -- train vs test
          rw [Function.update_noteq (by decide : ("train" : String) ≠ "test"),
            Function.update_noteq (by decide : ("train" : String) ≠ "valid"),
            Function.update_same, Function.update_same]
          exact disjoint_mono_right hTP1 hXsub
      · intro b hb
        rw [List.mem_singleton] at hb
        subst hb
        -- valid vs test
        rw [Function.update_noteq (by decide : ("valid" : String) ≠ "test"),
          Function.update_same, Function.update_same]
        exact hps2.2.2.2

/-- Witness for C1's amended theorem at a concrete input. -/
theorem split_sets_bounded_and_disjoint_witness :
    (∀ k l, (idSh k l).Perm l) ∧
    ((∀ s, ∀ x ∈ split_sets idSh demoRows2 ["train", "valid"] [90, 10] s,
        x < demoRows2.length) ∧
      ((["train", "valid"] : List String).Sublist ["train", "valid", "test"] →
        List.Pairwise (fun a b =>
          (split_sets idSh demoRows2 ["train", "valid"] [90, 10] a).Disjoint
            (split_sets idSh demoRows2 ["train", "valid"] [90, 10] b))
          ["train", "valid"])) := by
  refine ⟨fun _ l => List.Perm.refl l, ?_⟩
  exact split_sets_bounded_and_disjoint idSh (fun _ l => List.Perm.refl l)
    demoRows2 ["train", "valid"] [90, 10]

/-! ### Claim C2 -/

lemma specWalk_nil (start : List Char) (cur : List Nat) (acc : List (List Nat)) :
    specWalk start cur acc [] = acc ++ [cur] := rfl

lemma specWalk_cons (start : List Char) (cur : List Nat) (acc : List (List Nat))
    (q : Nat × List Char) (rest : List (Nat × List Char)) :
    specWalk start cur acc (q :: rest) =
      if q.2 = start then specWalk start (cur ++ [q.1]) acc rest
      else specWalk q.2 [q.1] (acc ++ [cur]) rest := rfl

/-- Bridge between the source's grouping loop and the spec's walk: once both
walks are past the first record and agree on the current prefix, they compute
the same groups — provided the last record does not open a fresh run (the
source drops such a run). -/
lemma groupWalk_bridge (rows : List CsvRow) (n : Nat)
    (hlast : sessionIdOf (rows.getD (n - 1) defaultRow) =
      sessionIdOf (rows.getD (n - 2) defaultRow)) :
    ∀ (c i : Nat) (start : List Char) (cur : List Nat) (acc : List (List Nat)),
      i + c = n → 1 ≤ i → i < n →
      start = sessionIdOf (rows.getD (i - 1) defaultRow) →
      ((List.range' i c).foldl (groupStep rows n) (acc, start, cur)).1 =
        specWalk start cur acc ((List.range' i c).map
          (fun j => (j, sessionIdOf (rows.getD j defaultRow)))) := by
  intro c
  induction c with
  | zero => intro i start cur acc hic h1 h2 hst; omega
  | succ c ih =>
    intro i start cur acc hic h1 h2 hst
    rw [List.range'_succ, List.foldl_cons, List.map_cons, specWalk_cons]
    by_cases hc : c = 0
    · subst hc
      have hi : i = n - 1 := by omega
      have hsid : sessionIdOf (rows.getD i defaultRow) = start := by
        rw [hst]
        rw [show i = n - 1 from hi]
        have he : n - 1 - 1 = n - 2 := by omega
        rw [he]
        exact hlast
      have hstep : groupStep rows n (acc, start, cur) i =
          (acc ++ [cur ++ [i]], start, cur ++ [i]) := by
        simp only [groupStep]
        rw [if_pos hsid, if_pos hi]
      rw [hstep, show List.range' (i + 1) 0 = [] from rfl, List.foldl_nil,
        List.map_nil, if_pos hsid, specWalk_nil]
    · have hlt : ¬ i = n - 1 := by omega
      by_cases hsid : sessionIdOf (rows.getD i defaultRow) = start
      · have hstep : groupStep rows n (acc, start, cur) i =
            (acc, start, cur ++ [i]) := by
          simp only [groupStep]
          rw [if_pos hsid, if_neg hlt]
        rw [hstep, if_pos hsid]
        exact ih (i + 1) start (cur ++ [i]) acc (by omega) (by omega) (by omega)
          (by rw [show i + 1 - 1 = i from rfl]; exact hsid.symm)
      · have hstep : groupStep rows n (acc, start, cur) i =
            (acc ++ [cur], sessionIdOf (rows.getD i defaultRow), [i]) := by
          simp only [groupStep]
          rw [if_neg hsid]
        rw [hstep, if_neg hsid]
        exact ih (i + 1) (sessionIdOf (rows.getD i defaultRow)) [i] (acc ++ [cur])
          (by omega) (by omega) (by omega)
          (by rw [show i + 1 - 1 = i from rfl])

/-- C2 counterexample: a single-record catalog whose session prefix is not
`LJ001`.  The source's grouping initialises the current prefix to `"LJ001"`
and closes the final group only inside the equal-prefix branch, so it
returns one empty group and drops the record, whereas one group per maximal
run would be `[[0]]`. -/
theorem split_sets_groups_runs_cx :
    split_sets_groups demoRowAB = [[]] ∧ sessionRuns demoRowAB = [[0]] ∧
    split_sets_groups demoRowAB ≠ sessionRuns demoRowAB := by
  exact ⟨by decide, by decide, by decide⟩

/-- C2 (amended): the grouping walks records in file order and starts a new
group on each session-prefix change, but the current prefix starts as
`"LJ001"` (not the first record's prefix) and the final group is closed only
when the last record continues the previous run.  Consequently the result is
one group per maximal run of equal prefixes provided the first record's
prefix is `LJ001` and the last record shares its prefix with its predecessor
(or the catalog is the single record `LJ001`); otherwise a leading empty
group may be emitted and the final run may be dropped. -/
theorem split_sets_groups_eq_runs (rows : List CsvRow)
    (h0 : sessionIdOf (rows.getD 0 defaultRow) = "LJ001".toList)
    (h1 : rows.length = 1 ∨ (2 ≤ rows.length ∧
      sessionIdOf (rows.getD (rows.length - 1) defaultRow) =
        sessionIdOf (rows.getD (rows.length - 2) defaultRow))) :
    split_sets_groups rows = sessionRuns rows := by
  rcases h1 with h1 | ⟨h2, hlast⟩
  · unfold split_sets_groups sessionRuns taggedIdx
    rw [h1]
    rw [show List.range 1 = [0] from rfl, List.foldl_cons, List.foldl_nil,
      List.map_cons, List.map_nil]
    have hstep : groupStep rows 1 ([], "LJ001".toList, []) 0 =
        ([[0]], "LJ001".toList, [0]) := by
      simp only [groupStep]
      rw [if_pos h0]
      simp
    rw [hstep]
    rfl
  · unfold split_sets_groups sessionRuns taggedIdx
    have hr : List.range rows.length = 0 :: List.range' 1 (rows.length - 1) := by
      rw [List.range_eq_range', show rows.length = (rows.length - 1) + 1 from
        by omega, List.range'_succ]
      rw [show (rows.length - 1) + 1 - 1 = rows.length - 1 from by omega]
    rw [hr, List.foldl_cons, List.map_cons]
    have hstep : groupStep rows rows.length ([], "LJ001".toList, []) 0 =
        ([], "LJ001".toList, [0]) := by
      simp only [groupStep]
      rw [if_pos h0, if_neg (by omega : ¬ (0 : Nat) = rows.length - 1)]
      rfl
    rw [hstep]
    have hbridge := groupWalk_bridge rows rows.length hlast (rows.length - 1) 1
      "LJ001".toList [0] [] (by omega) (by omega) (by omega)
      (by rw [show (1 : Nat) - 1 = 0 from rfl]; exact h0.symm)
    rw [hbridge]
    show specWalk "LJ001".toList [0] [] _ =
      specWalk (sessionIdOf (rows.getD 0 defaultRow)) [0] [] _
    rw [h0]

/-- Witness for C2's amended theorem: a two-record `LJ001` catalog. -/
theorem split_sets_groups_eq_runs_witness :
    sessionIdOf (demoRows2.getD 0 defaultRow) = "LJ001".toList ∧
    (demoRows2.length = 1 ∨ (2 ≤ demoRows2.length ∧
      sessionIdOf (demoRows2.getD (demoRows2.length - 1) defaultRow) =
        sessionIdOf (demoRows2.getD (demoRows2.length - 2) defaultRow))) ∧
    split_sets_groups demoRows2 = sessionRuns demoRows2 := by
  exact ⟨by decide, by decide,
    split_sets_groups_eq_runs demoRows2 (by decide) (by decide)⟩

/-! ### Claim C3 -/

/-- The enumerate-and-index fold of the source equals the fold over the
zipped (split, ratio) pairs, processed in list order. -/
lemma enumFold_eq_zipFold (sh : Nat → List Nat → List Nat)
    (splits : List String) (ratios slens : List Nat) :
    ∀ (l : List String) (k : Nat)
      (st : List (List Nat) × (String → List Nat) × Nat),
      k + l.length ≤ ratios.length →
      (List.enumFrom k l).foldl (splitStep sh splits ratios slens) st =
        (l.zip (ratios.drop k)).foldl
          (allocStep sh (splits.contains "test") ratios.sum slens) st := by
  intro l
  induction l with
  | nil => intro k st h; rfl
  | cons a t ih =>
    intro k st h
    have hk : k < ratios.length := by
      simp only [List.length_cons] at h
      omega
    rw [show List.enumFrom k (a :: t) = (k, a) :: List.enumFrom (k + 1) t from rfl,
      List.drop_eq_getElem_cons hk,
      show (a :: t).zip (ratios[k] :: ratios.drop (k + 1)) =
        (a, ratios[k]) :: t.zip (ratios.drop (k + 1)) from rfl,
      List.foldl_cons, List.foldl_cons]
    have hstepEq : splitStep sh splits ratios slens st (k, a) =
        allocStep sh (splits.contains "test") ratios.sum slens st (a, ratios[k]) := by
      obtain ⟨pools, ds, kk⟩ := st
      simp only [splitStep, allocStep]
      rw [List.getD_eq_getElem ratios 0 hk]
      by_cases ht : "test" ∈ splits
      · have hb : splits.contains "test" = true := by
          simpa [List.contains] using List.elem_iff.mpr ht
        rw [if_pos ht, if_pos hb]
      · have hb : ¬ splits.contains "test" = true := by
          simpa [List.contains, List.elem_iff] using ht
        rw [if_neg ht, if_neg hb]
    rw [hstepEq]
    exact ih (k + 1) _ (by simp only [List.length_cons] at h; omega)

/-- C3 counterexample: permuting the splits list together with its ratio
list changes the output.  With `["train", "valid"]`/`[90, 10]` the `valid`
split receives the 2 leftover indices; with `["valid", "train"]`/`[10, 90]`
the `valid` split (processed first, with `test` absent) receives the whole
catalog. -/
theorem split_sets_permutation_cx :
    (split_sets idSh demoRows15 ["train", "valid"] [90, 10]) "valid" = [9, 14] ∧
    (split_sets idSh demoRows15 ["valid", "train"] [10, 90]) "valid" =
      [0, 1, 2, 3, 4, 5, 6, 7, 8, 9, 10, 11, 12, 13, 14] ∧
    (split_sets idSh demoRows15 ["train", "valid"] [90, 10]) "valid" ≠
      (split_sets idSh demoRows15 ["valid", "train"] [10, 90]) "valid" := by
  exact ⟨by decide, by decide, by decide⟩

/-- C3 (amended): `split_sets` allocates the requested splits in the order
they appear in the splits list (with the positionally aligned ratio), not in
a fixed train/valid/test order: it equals the sequential processing of the
zipped (split, ratio) pairs.  Its output is therefore not invariant under
permuting the splits list together with its ratio list (see the
counterexample). -/
theorem split_sets_processes_in_list_order (sh : Nat → List Nat → List Nat)
    (rows : List CsvRow) (splits : List String) (ratios : List Nat)
    (h : splits.length ≤ ratios.length) :
    split_sets sh rows splits ratios = allocInListOrder sh rows splits ratios := by
  simp only [split_sets, allocInListOrder]
  rw [show splits.enum = List.enumFrom 0 splits from rfl,
    enumFold_eq_zipFold sh splits ratios _ splits 0 _ (by omega),
    List.drop_zero]

/-- Witness for C3's amended theorem at a concrete input. -/
theorem split_sets_processes_in_list_order_witness :
    (["train", "valid"] : List String).length ≤ ([90, 10] : List Nat).length ∧
    split_sets idSh demoRows2 ["train", "valid"] [90, 10] =
      allocInListOrder idSh demoRows2 ["train", "valid"] [90, 10] := by
  exact ⟨by decide,
    split_sets_processes_in_list_order idSh demoRows2 ["train", "valid"]
      [90, 10] (by decide)⟩

/-! ### Claim C7 -/

/-- C7: on the catalog with sessions `LJ001` (10 rows, indices 0–9) and
`LJ002` (5 rows, indices 10–14), with `splits = ["train", "valid"]` and
ratios `[90, 10]`, for every shuffle outcome (hence every seed) `train`
receives exactly 13 indices — 9 from the first session and 4 from the
second — and `valid` receives exactly the 2 remaining indices: together
they are a permutation of all 15 row indices. -/
theorem split_sets_two_session_scenario (sh : Nat → List Nat → List Nat)
    (Hsh : ∀ k l, (sh k l).Perm l) :
    ((split_sets sh demoRows15 ["train", "valid"] [90, 10]) "train").length = 13 ∧
    ((split_sets sh demoRows15 ["train", "valid"] [90, 10]) "train").countP
      (fun x => decide (x < 10)) = 9 ∧
    ((split_sets sh demoRows15 ["train", "valid"] [90, 10]) "train").countP
      (fun x => decide (10 ≤ x)) = 4 ∧
    ((split_sets sh demoRows15 ["train", "valid"] [90, 10]) "valid").length = 2 ∧
    (((split_sets sh demoRows15 ["train", "valid"] [90, 10]) "train") ++
      ((split_sets sh demoRows15 ["train", "valid"] [90, 10]) "valid")).Perm
      (List.range 15) := by
  have hG : split_sets_groups demoRows15 =
      [[0, 1, 2, 3, 4, 5, 6, 7, 8, 9], [10, 11, 12, 13, 14]] := by decide
  have hEq : split_sets sh demoRows15 ["train", "valid"] [90, 10] =
      Function.update
        (Function.update (fun _ => ([] : List Nat)) "train"
          (passDel sh 90 100
            (([([0, 1, 2, 3, 4, 5, 6, 7, 8, 9], 10),
              ([10, 11, 12, 13, 14], 5)] : List (List Nat × Nat))) 0).2.1)
        "valid"
        (passDel sh 90 100
          (([([0, 1, 2, 3, 4, 5, 6, 7, 8, 9], 10),
            ([10, 11, 12, 13, 14], 5)] : List (List Nat × Nat))) 0).1.flatten := by
    simp only [split_sets]
    rw [hG]
    rw [show (["train", "valid"] : List String).enum =
        [(0, "train"), (1, "valid")] from rfl,
      List.foldl_cons, splitStep_train, List.foldl_cons,
      splitStep_valid_not_mem sh (by decide), List.foldl_nil]
    rfl
  have hO : passDel sh 90 100
      (([([0, 1, 2, 3, 4, 5, 6, 7, 8, 9], 10),
        ([10, 11, 12, 13, 14], 5)] : List (List Nat × Nat))) 0 =
      ((sh 0 [0, 1, 2, 3, 4, 5, 6, 7, 8, 9]).drop 9 ::
        ((sh 1 [10, 11, 12, 13, 14]).drop 4 :: []),
       (sh 0 [0, 1, 2, 3, 4, 5, 6, 7, 8, 9]).take 9 ++
        ((sh 1 [10, 11, 12, 13, 14]).take 4 ++ []), 2) := rfl
  have h0p := Hsh 0 [0, 1, 2, 3, 4, 5, 6, 7, 8, 9]
  have h1p := Hsh 1 [10, 11, 12, 13, 14]
  have h0len : (sh 0 [0, 1, 2, 3, 4, 5, 6, 7, 8, 9]).length = 10 := by
    rw [h0p.length_eq]; rfl
  have h1len : (sh 1 [10, 11, 12, 13, 14]).length = 5 := by
    rw [h1p.length_eq]; rfl
  have hT : (split_sets sh demoRows15 ["train", "valid"] [90, 10]) "train" =
      (sh 0 [0, 1, 2, 3, 4, 5, 6, 7, 8, 9]).take 9 ++
        ((sh 1 [10, 11, 12, 13, 14]).take 4 ++ []) := by
    rw [hEq, Function.update_noteq (by decide : ("train" : String) ≠ "valid"),
      Function.update_same, hO]
  have hV : (split_sets sh demoRows15 ["train", "valid"] [90, 10]) "valid" =
      (sh 0 [0, 1, 2, 3, 4, 5, 6, 7, 8, 9]).drop 9 ++
        ((sh 1 [10, 11, 12, 13, 14]).drop 4 ++ []) := by
    rw [hEq, Function.update_same, hO]
    simp
  have hmem0 : ∀ x ∈ (sh 0 [0, 1, 2, 3, 4, 5, 6, 7, 8, 9]).take 9, x < 10 := by
    intro x hx
    have hx' := h0p.subset (List.mem_of_mem_take hx)
    have : ∀ x ∈ ([0, 1, 2, 3, 4, 5, 6, 7, 8, 9] : List Nat), x < 10 := by decide
    exact this x hx'
  have hmem1 : ∀ x ∈ (sh 1 [10, 11, 12, 13, 14]).take 4, 10 ≤ x := by
    intro x hx
    have hx' := h1p.subset (List.mem_of_mem_take hx)
    have : ∀ x ∈ ([10, 11, 12, 13, 14] : List Nat), 10 ≤ x := by decide
    exact this x hx'
  refine ⟨?_, ?_, ?_, ?_, ?_⟩
  · rw [hT]
    simp [List.length_take, h0len, h1len]
  · rw [hT, List.countP_append, List.countP_append]
    have hc0 : ((sh 0 [0, 1, 2, 3, 4, 5, 6, 7, 8, 9]).take 9).countP
        (fun x => decide (x < 10)) = 9 := by
      rw [List.countP_eq_length.mpr (by intro a ha; simpa using hmem0 a ha)]
      simp [List.length_take, h0len]
    have hc1 : ((sh 1 [10, 11, 12, 13, 14]).take 4).countP
        (fun x => decide (x < 10)) = 0 := by
      rw [List.countP_eq_zero.mpr]
      intro a ha
      have := hmem1 a ha
      simp
      omega
    rw [hc0, hc1]
    simp
  · rw [hT, List.countP_append, List.countP_append]
    have hc0 : ((sh 0 [0, 1, 2, 3, 4, 5, 6, 7, 8, 9]).take 9).countP
        (fun x => decide (10 ≤ x)) = 0 := by
      rw [List.countP_eq_zero.mpr]
      intro a ha
      have := hmem0 a ha
      simp
      omega
    have hc1 : ((sh 1 [10, 11, 12, 13, 14]).take 4).countP
        (fun x => decide (10 ≤ x)) = 4 := by
      rw [List.countP_eq_length.mpr (by intro a ha; simpa using hmem1 a ha)]
      simp [List.length_take, h1len]
    rw [hc0, hc1]
    simp
  · rw [hV]
    simp [List.length_drop, h0len, h1len]
  · rw [hT, hV]
    have hre : ((sh 0 [0, 1, 2, 3, 4, 5, 6, 7, 8, 9]).take 9 ++
        ((sh 1 [10, 11, 12, 13, 14]).take 4 ++ [])) ++
        ((sh 0 [0, 1, 2, 3, 4, 5, 6, 7, 8, 9]).drop 9 ++
          ((sh 1 [10, 11, 12, 13, 14]).drop 4 ++ [])) =
        ((sh 0 [0, 1, 2, 3, 4, 5, 6, 7, 8, 9]).take 9 ++
          (sh 1 [10, 11, 12, 13, 14]).take 4) ++
        ((sh 0 [0, 1, 2, 3, 4, 5, 6, 7, 8, 9]).drop 9 ++
          (sh 1 [10, 11, 12, 13, 14]).drop 4) := by
      simp
    rw [hre]
    refine (append_append_perm _ _ _ _).trans ?_
    rw [List.take_append_drop, List.take_append_drop]
    refine (h0p.append h1p).trans ?_
    rw [show ([0, 1, 2, 3, 4, 5, 6, 7, 8, 9] : List Nat) ++
        [10, 11, 12, 13, 14] = List.range 15 from by decide]

/-- Witness for C7 at the identity shuffle oracle. -/
theorem split_sets_two_session_scenario_witness :
    (∀ k l, (idSh k l).Perm l) ∧
    (((split_sets idSh demoRows15 ["train", "valid"] [90, 10]) "train").length = 13 ∧
      ((split_sets idSh demoRows15 ["train", "valid"] [90, 10]) "train").countP
        (fun x => decide (x < 10)) = 9 ∧
      ((split_sets idSh demoRows15 ["train", "valid"] [90, 10]) "train").countP
        (fun x => decide (10 ≤ x)) = 4 ∧
      ((split_sets idSh demoRows15 ["train", "valid"] [90, 10]) "valid").length = 2 ∧
      (((split_sets idSh demoRows15 ["train", "valid"] [90, 10]) "train") ++
        ((split_sets idSh demoRows15 ["train", "valid"] [90, 10]) "valid")).Perm
        (List.range 15)) := by
  refine ⟨fun _ l => List.Perm.refl l, ?_⟩
  exact split_sets_two_session_scenario idSh (fun _ l => List.Perm.refl l)

/-! ### Claim C4 -/

lemma div_add_div_le (u v s : Nat) : u / s + v / s ≤ (u + v) / s := by
  rcases Nat.eq_zero_or_pos s with rfl | hs
  · simp
  · rw [Nat.le_div_iff_mul_le hs, Nat.add_mul]
    have hu := Nat.div_mul_le_self u s
    have hv := Nat.div_mul_le_self v s
    omega

lemma sum_take_le_sum (l : List Nat) (k : Nat) : (l.take k).sum ≤ l.sum := by
  conv_rhs => rw [← List.take_append_drop k l]
  rw [List.sum_append]
  omega

lemma sum_take_succ (l : List Nat) (k : Nat) (hk : k < l.length) :
    (l.take (k + 1)).sum = (l.take k).sum + l[k] :=
  List.sum_take_succ l k hk

lemma enumFrom_append (l₁ l₂ : List String) : ∀ k,
    List.enumFrom k (l₁ ++ l₂) =
      List.enumFrom k l₁ ++ List.enumFrom (k + l₁.length) l₂ := by
  induction l₁ with
  | nil => intro k; simp
  | cons a t ih =>
    intro k
    rw [List.cons_append,
      show List.enumFrom k (a :: (t ++ l₂)) =
        (k, a) :: List.enumFrom (k + 1) (t ++ l₂) from rfl,
      ih (k + 1),
      show List.enumFrom k (a :: t) = (k, a) :: List.enumFrom (k + 1) t from rfl,
      List.cons_append]
    have he : k + (a :: t).length = k + 1 + t.length := by
      simp [List.length_cons]
      omega
    rw [he]

lemma indexOf_append_not_mem {a : String} : ∀ (pre post : List String),
    a ∉ pre → List.indexOf a (pre ++ a :: post) = pre.length := by
  intro pre
  induction pre with
  | nil => intro post _; simpa using List.indexOf_cons_self a post
  | cons b t ih =>
    intro post h
    have hba : (b == a) = false := by
      rw [beq_eq_false_iff_ne]
      intro he
      exact h (by simp [he])
    rw [List.cons_append, List.indexOf_cons, hba, Bool.cond_false,
      List.length_cons, ih post (fun hm => h (List.mem_cons_of_mem _ hm))]

lemma splitStep_other (sh : Nat → List Nat → List Nat) (splits : List String)
    (ratios slens : List Nat) (pools : List (List Nat))
    (ds : String → List Nat) (k i : Nat) {name : String}
    (h1 : name ≠ "train") (h2 : name ≠ "valid") (h3 : name ≠ "test") :
    splitStep sh splits ratios slens (pools, ds, k) (i, name) =
      (pools, Function.update ds name [], k) := by
  simp only [splitStep]
  rw [if_neg h1, if_neg h2, if_neg h3]

/-- Invariant carried through the allocation loop for claim C4: each pool is
still a subset of its session group, and it has lost at most
`⌊group_size * R / s⌋` elements, where `R` bounds the sum of the ratios of
the pool-consuming splits processed so far. -/
def PoolInv (R s : Nat) (groups pools : List (List Nat)) : Prop :=
  List.Forall₂ (fun g pool =>
    g.length ≤ pool.length + g.length * R / s ∧ ∀ x ∈ pool, x ∈ g) groups pools

lemma PoolInv_mono {R R' s : Nat} (h : R ≤ R') {groups pools : List (List Nat)}
    (hinv : PoolInv R s groups pools) : PoolInv R' s groups pools := by
  refine hinv.imp ?_
  rintro g pool ⟨h1, h2⟩
  have hd : g.length * R / s ≤ g.length * R' / s :=
    Nat.div_le_div_right (Nat.mul_le_mul_left g.length h)
  exact ⟨by omega, h2⟩

lemma PoolInv_init (s : Nat) (groups : List (List Nat)) :
    PoolInv 0 s groups groups := by
  refine List.forall₂_same.mpr ?_
  intro g _
  exact ⟨by simp, fun x hx => hx⟩

/-- A pool-consuming pass under the invariant takes exactly
`⌊group_size * r / s⌋` indices from each pool (the pools are large enough
because the ratios consumed so far plus `r` still fit under `s`), and
re-establishes the invariant at `R + r`. -/
lemma passDel_inv (sh : Nat → List Nat → List Nat)
    (Hsh : ∀ k l, (sh k l).Perm l) (r s R : Nat) (hs : 0 < s)
    (hRr : R + r ≤ s) :
    ∀ (groups pools : List (List Nat)) (k : Nat),
      PoolInv R s groups pools →
      PoolInv (R + r) s groups
        (passDel sh r s (pools.zip (groups.map List.length)) k).1 ∧
      ∃ parts, (passDel sh r s (pools.zip (groups.map List.length)) k).2.1 =
          parts.flatten ∧
        List.Forall₂ (fun part g => part.length = g.length * r / s ∧
          ∀ x ∈ part, x ∈ g) parts groups := by
  intro groups
  induction groups with
  | nil =>
    intro pools k h
    have hp : pools = [] := List.forall₂_nil_left_iff.mp h
    subst hp
    exact ⟨List.Forall₂.nil, [], rfl, List.Forall₂.nil⟩
  | cons g gs ih =>
    intro pools k h
    rcases h with _ | ⟨⟨hlen, hsub⟩, hrest⟩
    rename_i pool pools2
    obtain ⟨hinv2, parts, hflat, hf2⟩ := ih pools2 (k + 1) hrest
    have hble : g.length * r / s + g.length * R / s ≤ g.length := by
      calc g.length * r / s + g.length * R / s
          ≤ (g.length * r + g.length * R) / s := div_add_div_le _ _ _
        _ = g.length * (r + R) / s := by rw [← Nat.mul_add]
        _ ≤ g.length * s / s :=
            Nat.div_le_div_right (Nat.mul_le_mul_left _ (by omega))
        _ = g.length := Nat.mul_div_left g.length hs
    have hnle : g.length * r / s ≤ pool.length := by omega
    have hshlen : (sh k pool).length = pool.length := (Hsh k pool).length_eq
    have hsup : g.length * R / s + g.length * r / s ≤ g.length * (R + r) / s := by
      calc g.length * R / s + g.length * r / s
          ≤ (g.length * R + g.length * r) / s := div_add_div_le _ _ _
        _ = g.length * (R + r) / s := by rw [← Nat.mul_add]
    constructor
    · simp only [List.map_cons, List.zip_cons_cons, passDel]
      refine List.Forall₂.cons ⟨?_, ?_⟩ hinv2
      · have hdlen : ((sh k pool).drop (g.length * r / s)).length =
            pool.length - g.length * r / s := by
          rw [List.length_drop, hshlen]
        omega
      · intro x hx
        exact hsub x ((Hsh k pool).subset (List.mem_of_mem_drop hx))
    · refine ⟨(sh k pool).take (g.length * r / s) :: parts, ?_, ?_⟩
      · simp only [List.map_cons, List.zip_cons_cons, passDel, List.flatten_cons]
        rw [show (passDel sh r s
            (List.zipWith Prod.mk pools2 (List.map List.length gs)) (k + 1)).2.1 =
          (passDel sh r s (pools2.zip (List.map List.length gs)) (k + 1)).2.1
          from rfl, hflat]
      · refine List.Forall₂.cons ⟨?_, ?_⟩ hf2
        · rw [List.length_take, hshlen]
          omega
        · intro x hx
          exact hsub x ((Hsh k pool).subset (List.mem_of_mem_take hx))

/-- The allocation loop preserves the pool invariant: each processed split
either consumes `⌊group_size * ratio_i / s⌋` indices per pool (counted into
`R` as the sum of the ratios seen so far) or leaves the pools untouched. -/
lemma splitFold_inv (sh : Nat → List Nat → List Nat)
    (Hsh : ∀ k l, (sh k l).Perm l) (splits : List String) (ratios : List Nat)
    (hs : 0 < ratios.sum) (groups : List (List Nat)) :
    ∀ (l : List String) (kpos : Nat) (pools : List (List Nat))
      (ds : String → List Nat) (ksh : Nat),
      kpos + l.length ≤ ratios.length →
      PoolInv ((ratios.take kpos).sum) ratios.sum groups pools →
      PoolInv ((ratios.take (kpos + l.length)).sum) ratios.sum groups
        ((List.enumFrom kpos l).foldl
          (splitStep sh splits ratios (groups.map List.length))
          (pools, ds, ksh)).1 := by
  intro l
  induction l with
  | nil =>
    intro kpos pools ds ksh hlen hinv
    simpa using hinv
  | cons a t ih =>
    intro kpos pools ds ksh hlen hinv
    rw [show List.enumFrom kpos (a :: t) =
      (kpos, a) :: List.enumFrom (kpos + 1) t from rfl, List.foldl_cons]
    have hkpos : kpos < ratios.length := by
      simp only [List.length_cons] at hlen
      omega
    have hRstep : (ratios.take (kpos + 1)).sum =
        (ratios.take kpos).sum + ratios.getD kpos 0 := by
      rw [sum_take_succ _ _ hkpos, List.getD_eq_getElem _ _ hkpos]
    have hRr : (ratios.take kpos).sum + ratios.getD kpos 0 ≤ ratios.sum := by
      rw [← hRstep]
      exact sum_take_le_sum _ _
    have hlen' : (kpos + 1) + t.length ≤ ratios.length := by
      simp only [List.length_cons] at hlen
      omega
    have hgoal : kpos + (a :: t).length = (kpos + 1) + t.length := by
      simp [List.length_cons]
      omega
    rw [hgoal]
    have hdel : ∀ ds' : String → List Nat,
        PoolInv ((ratios.take (kpos + 1)).sum) ratios.sum groups
          (passDel sh (ratios.getD kpos 0) ratios.sum
            (pools.zip (groups.map List.length)) ksh).1 := by
      intro _
      rw [hRstep]
      exact (passDel_inv sh Hsh (ratios.getD kpos 0) ratios.sum
        ((ratios.take kpos).sum) hs hRr groups pools ksh hinv).1
    have hkeep : PoolInv ((ratios.take (kpos + 1)).sum) ratios.sum groups pools := by
      refine PoolInv_mono ?_ hinv
      rw [hRstep]
      omega
    by_cases ha1 : a = "train"
    · subst ha1
      rw [splitStep_train]
      exact ih (kpos + 1) _ _ _ hlen' (hdel ds)
    · by_cases ha2 : a = "valid"
      · subst ha2
        by_cases ht : "test" ∈ splits
        · rw [splitStep_valid_mem sh ht]
          exact ih (kpos + 1) _ _ _ hlen' (hdel ds)
        · rw [splitStep_valid_not_mem sh ht]
          exact ih (kpos + 1) _ _ _ hlen' hkeep
      · by_cases ha3 : a = "test"
        · subst ha3
          rw [splitStep_test]
          exact ih (kpos + 1) _ _ _ hlen' hkeep
        · rw [splitStep_other sh splits ratios _ pools ds ksh kpos ha1 ha2 ha3]
          exact ih (kpos + 1) _ _ _ hlen' hkeep

/-- Processing splits other than `train` never changes the `train` entry of
`data_split`. -/
lemma splitFold_ds_preserved (sh : Nat → List Nat → List Nat)
    (splits : List String) (ratios slens : List Nat) :
    ∀ (L : List (Nat × String)) (st : List (List Nat) × (String → List Nat) × Nat),
      (∀ q ∈ L, q.2 ≠ "train") →
      ((L.foldl (splitStep sh splits ratios slens) st).2.1) "train" =
        st.2.1 "train" := by
  intro L
  induction L with
  | nil => intro st _; rfl
  | cons q t ih =>
    intro st h
    rw [List.foldl_cons, ih _ (fun q' hq' => h q' (List.mem_cons_of_mem _ hq'))]
    obtain ⟨pools, ds, k⟩ := st
    obtain ⟨i, name⟩ := q
    have hname : name ≠ "train" := h (i, name) (List.mem_cons_self _ _)
    simp only [splitStep]
    split_ifs with h1 h2 h3 h4
    · exact absurd h1 hname
    · exact Function.update_noteq (Ne.symm hname) _ _
    · exact Function.update_noteq (Ne.symm hname) _ _
    · exact Function.update_noteq (Ne.symm hname) _ _
    · exact Function.update_noteq (Ne.symm hname) _ _

/-- C4: whenever `train` is requested (exactly once), with ratios aligned to
the splits and a positive ratio sum, the indices assigned to `train`
decompose into one block per session group, the block for group `g` drawn
from `g` and of size exactly `⌊g.length * train_ratio / ratio_sum⌋`, where
`train_ratio` is the ratio positionally aligned with `train`.  This holds
for every position of `train` in the splits list and every shuffle outcome
(hence every seed): the pool-consuming splits processed before `train` leave
every pool large enough for a full take. -/
theorem split_sets_train_count (sh : Nat → List Nat → List Nat)
    (Hsh : ∀ k l, (sh k l).Perm l) (rows : List CsvRow)
    (splits : List String) (ratios : List Nat)
    (h1 : splits.count "train" = 1) (h2 : splits.length ≤ ratios.length)
    (h3 : 0 < ratios.sum) :
    ∃ parts : List (List Nat),
      split_sets sh rows splits ratios "train" = parts.flatten ∧
      List.Forall₂ (fun part g =>
        part.length = g.length * (ratios.getD (List.indexOf "train" splits) 0) /
          ratios.sum ∧
        ∀ x ∈ part, x ∈ g) parts (split_sets_groups rows) := by
  have hmem : "train" ∈ splits := by
    rw [← List.count_pos_iff]
    omega
  obtain ⟨pre, post, hsplit⟩ := List.append_of_mem hmem
  subst hsplit
  have hcnt : List.count "train" pre + (List.count "train" post + 1) =
      List.count "train" (pre ++ "train" :: post) := by
    rw [List.count_append, List.count_cons_self]
  rw [h1] at hcnt
  have hpre : "train" ∉ pre := List.count_eq_zero.mp (by omega)
  have hpost : "train" ∉ post := List.count_eq_zero.mp (by omega)
  have hidx : List.indexOf "train" (pre ++ "train" :: post) = pre.length :=
    indexOf_append_not_mem pre post hpre
  rw [hidx]
  simp only [split_sets]
  set G := split_sets_groups rows with hGdef
  have henum : (pre ++ "train" :: post).enum =
      List.enumFrom 0 pre ++
        ((pre.length, "train") :: List.enumFrom (pre.length + 1) post) := by
    show List.enumFrom 0 (pre ++ "train" :: post) = _
    rw [enumFrom_append]
    have hz : (0 : Nat) + pre.length = pre.length := by omega
    rw [hz]
    rfl
  rw [henum, List.foldl_append, List.foldl_cons]
  have hlenpre : 0 + pre.length ≤ ratios.length := by
    simp only [List.length_append, List.length_cons] at h2
    omega
  have hinvA := splitFold_inv sh Hsh (pre ++ "train" :: post) ratios h3 G pre 0
    G (fun _ => []) 0 hlenpre
    (by simpa using PoolInv_init ratios.sum G)
  rcases hstA : (List.enumFrom 0 pre).foldl
      (splitStep sh (pre ++ "train" :: post) ratios (G.map List.length))
      (G, fun _ => [], 0) with ⟨poolsA, dsA, kA⟩
  rw [hstA] at hinvA
  simp only at hinvA
  rw [splitStep_train]
  have hpreidx : pre.length < ratios.length := by
    simp only [List.length_append, List.length_cons] at h2
    omega
  have hRr : (ratios.take pre.length).sum + ratios.getD pre.length 0 ≤
      ratios.sum := by
    rw [List.getD_eq_getElem ratios 0 hpreidx, ← sum_take_succ _ _ hpreidx]
    exact sum_take_le_sum _ _
  have hinvA' : PoolInv ((ratios.take pre.length).sum) ratios.sum G poolsA := by
    rw [Nat.zero_add] at hinvA
    exact hinvA
  obtain ⟨hinvB, parts, hflat, hparts⟩ :=
    passDel_inv sh Hsh (ratios.getD pre.length 0) ratios.sum
      ((ratios.take pre.length).sum) h3 hRr G poolsA kA hinvA'
  have hnames : ∀ q ∈ List.enumFrom (pre.length + 1) post, q.2 ≠ "train" := by
    intro q hq he
    apply hpost
    have hm : q.2 ∈ List.map Prod.snd (List.enumFrom (pre.length + 1) post) :=
      List.mem_map_of_mem _ hq
    rw [List.enumFrom_map_snd] at hm
    exact he ▸ hm
  refine ⟨parts, ?_, hparts⟩
  rw [splitFold_ds_preserved sh (pre ++ "train" :: post) ratios
    (G.map List.length) (List.enumFrom (pre.length + 1) post) _ hnames]
  rw [show ((passDel sh (ratios.getD pre.length 0) ratios.sum
      (poolsA.zip (G.map List.length)) kA).1,
    Function.update dsA "train"
      (passDel sh (ratios.getD pre.length 0) ratios.sum
        (poolsA.zip (G.map List.length)) kA).2.1,
    (passDel sh (ratios.getD pre.length 0) ratios.sum
      (poolsA.zip (G.map List.length)) kA).2.2).2.1 =
    Function.update dsA "train"
      (passDel sh (ratios.getD pre.length 0) ratios.sum
        (poolsA.zip (G.map List.length)) kA).2.1 from rfl]
  rw [Function.update_same]
  exact hflat

/-- Witness for C4 at a concrete input. -/
theorem split_sets_train_count_witness :
    (∀ k l, (idSh k l).Perm l) ∧
    (["train", "valid"] : List String).count "train" = 1 ∧
    (["train", "valid"] : List String).length ≤ ([90, 10] : List Nat).length ∧
    0 < ([90, 10] : List Nat).sum ∧
    (∃ parts : List (List Nat),
      split_sets idSh demoRows2 ["train", "valid"] [90, 10] "train" =
        parts.flatten ∧
      List.Forall₂ (fun part g =>
        part.length = g.length *
          (([90, 10] : List Nat).getD
            (List.indexOf "train" ["train", "valid"]) 0) /
          ([90, 10] : List Nat).sum ∧
        ∀ x ∈ part, x ∈ g) parts (split_sets_groups demoRows2)) := by
  refine ⟨fun _ l => List.Perm.refl l, by decide, by decide, by decide, ?_⟩
  exact split_sets_train_count idSh (fun _ l => List.Perm.refl l) demoRows2
    ["train", "valid"] [90, 10] (by decide) (by decide) (by decide)

/-! ### Claim C5 -/

/-- C5 counterexample: writing the `valid` split's manifest under a save
folder whose name contains the string `train` produces entries with
`segment = true`, although the manifest being written is not the training
split's manifest. -/
theorem prepare_json_segment_cx :
    prepare_json [0] ("train_save" ++ "/" ++ "valid.json") "wavs" demoRowAB none =
      [("AB001-0001", ⟨"wavs/AB001-0001.wav", "A", true, none⟩)] ∧
    ("train_save" ++ "/" ++ "valid.json") ≠ ("train_save" ++ "/" ++ "train.json") := by
  exact ⟨by decide, by decide⟩

/-- C5 (amended): every entry's `segment` field is true iff the string
`train` occurs as a substring of the output file path (so a save folder whose
path contains `train` makes every split's entries training segments; only
when the path avoids `train` elsewhere does the flag coincide with the
manifest being `train.json`). -/
theorem prepare_json_segment_substring (seg_lst : List Nat) (jf wf : String)
    (rows : List CsvRow) (dur : Option String) (q : String × Entry)
    (hq : q ∈ prepare_json seg_lst jf wf rows dur) :
    q.2.segment = true ↔ List.IsInfix "train".toList jf.toList := by
  rw [prepare_json_mem_segment seg_lst jf wf rows dur q hq]
  exact strContains_iff _ _

/-- Witness for C5's amended theorem at a concrete input. -/
theorem prepare_json_segment_substring_witness :
    (("AB001-0001", (⟨"wavs/AB001-0001.wav", "A", true, none⟩ : Entry)) ∈
      prepare_json [0] "sv/train.json" "wavs" demoRowAB none) ∧
    ((("AB001-0001", (⟨"wavs/AB001-0001.wav", "A", true, none⟩ : Entry)) :
        String × Entry).2.segment = true ↔
      List.IsInfix "train".toList "sv/train.json".toList) := by
  refine ⟨by decide, ?_⟩
  exact prepare_json_segment_substring [0] "sv/train.json" "wavs" demoRowAB none
    _ (by decide)

/-! ### Claim C6 -/

lemma skip_foldl_eq_all (fs : String → Bool) (sf : String) :
    ∀ (l : List String) (b : Bool),
      l.foldl
        (fun sk split =>
          if fs (sf ++ "/" ++ splitFileName split) then sk else false) b =
      (b && l.all (fun split => fs (sf ++ "/" ++ splitFileName split))) := by
  intro l
  induction l with
  | nil => simp
  | cons a t ih =>
    intro b
    rw [List.foldl_cons, ih]
    by_cases h : fs (sf ++ "/" ++ splitFileName a) = true
    · simp [h]
    · simp [h, Bool.and_comm]

/-- C6: `skip` returns true iff the manifest file of every requested split
exists in the save folder and the persisted configuration file exists with
contents equal to the current configuration; in particular a missing
persisted-config file (`optContent = none`) forces `false` even when all
manifests exist.  The hypothesis restricts the split names to the domain of
the source's `split_files` dictionary (other names raise `KeyError`). -/
theorem skip_true_iff (splits : List String) (sf : String) (conf : Conf)
    (fs : String → Bool) (opt : Option Conf)
    (hval : ∀ s ∈ splits, s = "train" ∨ s = "valid" ∨ s = "test") :
    skip splits sf conf fs opt = true ↔
      ((∀ s ∈ splits, fs (sf ++ "/" ++ splitFileName s) = true) ∧
        opt = some conf) := by
  simp only [skip, skip_foldl_eq_all, Bool.true_and]
  by_cases hall : splits.all (fun split => fs (sf ++ "/" ++ splitFileName split)) = true
  · rw [if_pos hall]
    have hall' := List.all_eq_true.mp hall
    cases opt with
    | none =>
      constructor
      · intro h; cases h
      · rintro ⟨-, h⟩; cases h
    | some c =>
      by_cases hc : c = conf
      · subst hc
        constructor
        · intro _; exact ⟨hall', rfl⟩
        · intro _; simp
      · show (if c = conf then true else false) = true ↔ _
        rw [if_neg hc]
        constructor
        · intro h; cases h
        · rintro ⟨-, h⟩
          exact absurd (Option.some_injective _ h) hc
  · rw [if_neg hall]
    constructor
    · intro h; exact absurd h hall
    · rintro ⟨h1, -⟩
      exact absurd (List.all_eq_true.mpr h1) hall

/-- Witness for C6 at a concrete input: one requested split whose manifest
exists and a matching persisted config. -/
theorem skip_true_iff_witness :
    (∀ s ∈ ["train"], s = "train" ∨ s = "valid" ∨ s = "test") ∧
    (skip ["train"] "sv" ⟨"df", ["train"], [100], "sv", 7⟩
        (fun p => p == "sv/train.json")
        (some ⟨"df", ["train"], [100], "sv", 7⟩) = true ↔
      ((∀ s ∈ ["train"],
          (fun p => p == "sv/train.json") ("sv" ++ "/" ++ splitFileName s) = true) ∧
        (some (⟨"df", ["train"], [100], "sv", 7⟩ : Conf) =
          some ⟨"df", ["train"], [100], "sv", 7⟩))) := by
  refine ⟨by decide, ?_⟩
  exact skip_true_iff ["train"] "sv" ⟨"df", ["train"], [100], "sv", 7⟩
    (fun p => p == "sv/train.json") (some ⟨"df", ["train"], [100], "sv", 7⟩)
    (by decide)

/-! ### Claim C8 -/

/-- C8: with no pre-existing lexicon file and a training manifest whose
labels are exactly `Hello` and `World`, `create_symbol_file` writes the 7
distinct lowercase characters h, e, l, o, w, r, d (in some order) joined by
tabs. -/
theorem create_symbol_file_hello_world :
    ∃ cs : List Char,
      create_symbol_file false demoManifest = some (tabJoin cs) ∧
      cs.Perm ['h', 'e', 'l', 'o', 'w', 'r', 'd'] ∧ cs.length = 7 := by
  exact ⟨['h', 'e', 'l', 'o', 'w', 'r', 'd'], by decide, by decide, by decide⟩

/-! ### Claim C9 -/

/-- C9: two indices whose rows share the same `item_id` produce a single
manifest entry whose attributes come from the later-processed row, so the
manifest has fewer entries than the index list. -/
theorem prepare_json_duplicate_id (i j : Nat) (jf wf : String)
    (rows : List CsvRow)
    (h : (rows.getD i defaultRow).col0 = (rows.getD j defaultRow).col0) :
    prepare_json [i, j] jf wf rows none =
      [((rows.getD j defaultRow).col0,
        { wav := wf ++ "/" ++ (rows.getD j defaultRow).col0 ++ ".wav"
          label := (rows.getD j defaultRow).col2
          segment := strContains jf.toList "train".toList
          durations := none })] ∧
    (prepare_json [i, j] jf wf rows none).length < ([i, j] : List Nat).length := by
  have hmain : prepare_json [i, j] jf wf rows none =
      [((rows.getD j defaultRow).col0,
        { wav := wf ++ "/" ++ (rows.getD j defaultRow).col0 ++ ".wav"
          label := (rows.getD j defaultRow).col2
          segment := strContains jf.toList "train".toList
          durations := none })] := by
    have h' : (rows[i]?.getD defaultRow).col0 = (rows[j]?.getD defaultRow).col0 := by
      simpa [List.getD_eq_getElem?_getD] using h
    simp [prepare_json, upsert, h', Option.map_none']
  exact ⟨hmain, by rw [hmain]; simp⟩

/-- Witness for C9: a concrete catalog whose rows 0 and 1 share an id. -/
theorem prepare_json_duplicate_id_witness :
    (([⟨"LJ001-0001", "a", "A"⟩, ⟨"LJ001-0001", "b", "B"⟩] :
        List CsvRow).getD 0 defaultRow).col0 =
      (([⟨"LJ001-0001", "a", "A"⟩, ⟨"LJ001-0001", "b", "B"⟩] :
        List CsvRow).getD 1 defaultRow).col0 ∧
    (prepare_json [0, 1] "sv/x.json" "wavs"
        [⟨"LJ001-0001", "a", "A"⟩, ⟨"LJ001-0001", "b", "B"⟩] none =
      [((([⟨"LJ001-0001", "a", "A"⟩, ⟨"LJ001-0001", "b", "B"⟩] :
            List CsvRow).getD 1 defaultRow).col0,
        { wav := "wavs" ++ "/" ++
            (([⟨"LJ001-0001", "a", "A"⟩, ⟨"LJ001-0001", "b", "B"⟩] :
              List CsvRow).getD 1 defaultRow).col0 ++ ".wav"
          label := (([⟨"LJ001-0001", "a", "A"⟩, ⟨"LJ001-0001", "b", "B"⟩] :
            List CsvRow).getD 1 defaultRow).col2
          segment := strContains "sv/x.json".toList "train".toList
          durations := none })] ∧
      (prepare_json [0, 1] "sv/x.json" "wavs"
        [⟨"LJ001-0001", "a", "A"⟩, ⟨"LJ001-0001", "b", "B"⟩] none).length <
        ([0, 1] : List Nat).length) := by
  exact ⟨by decide, prepare_json_duplicate_id 0 1 "sv/x.json" "wavs"
    [⟨"LJ001-0001", "a", "A"⟩, ⟨"LJ001-0001", "b", "B"⟩] (by decide)⟩

/-! ### Claim C10 -/

/-- C10: with the skip flag set, `prepare_ljspeech` seeds the RNG and
returns: its effect trace is exactly `[seedRandom seed]` — no directory
creation, no external command, no file read and no file write — for every
combination of the other parameters. -/
theorem prepare_ljspeech_skip_prep_trace (data_folder save_folder : String)
    (splits : List String) (ratios : List Nat) (seed : Nat)
    (duration_link : Option String) (create_symbol_list : Bool)
    (sh : Nat → List Nat → List Nat) (w : World) :
    prepare_ljspeech data_folder save_folder splits ratios seed true
      duration_link create_symbol_list sh w = [Effect.seedRandom seed] := by
  rfl

end LJSpeechPrep
